import Mathlib

/-!
Shallow embedding of `src/egui/src/widgets/text_edit.rs` (the editable text
widget of the egui toolkit).  Rust `String`s are modelled as `List Char`
(sequences of Unicode scalar values, matching `str::chars()`); `usize` as
`Nat`; a Rust panic (an `unwrap` of a missing character) as `Option.none`.
Definitions are translated clause-for-clause from the source functions
`insert_text`, `on_key_press`, `line_col_from_char_idx`,
`char_idx_from_line_col`, `line_from_number`, and from the event loop inside
`TextEdit::ui` (lines 188-224).
-/

/-- The subset of `egui::Key` consumed by `on_key_press` and the event loop.
`end_` stands for Rust `Key::End` (`end` is reserved in Lean); `otherKey`
stands for every remaining variant, all of which fall into the `_ => {}` arm. -/
inductive Key where
  | enter
  | escape
  | backspace
  | delete
  | home
  | end_
  | left
  | right
  | up
  | down
  | otherKey
deriving DecidableEq

/-- The subset of `egui::Event` consumed by the event loop in `TextEdit::ui`.
`otherEvent` stands for every variant handled by the `_ => {}` arm. -/
inductive Event where
  | copy
  | cut
  | text : List Char → Event
  | key : Key → Bool → Event
  | otherEvent
deriving DecidableEq

/-- Take exactly `n` elements: `for _ in 0..n { it.next().unwrap() }`.
Returns the taken prefix and the rest of the iterator; `none` models the
panic of `unwrap` when the iterator is exhausted early. -/
def takeExact : Nat → List Char → Option (List Char × List Char)
  | 0, l => some ([], l)
  | _ + 1, [] => none
  | n + 1, c :: rest => (takeExact n rest).map fun pr => (c :: pr.1, pr.2)

/-- Model of `s.split('\n')`: split on newline characters.  Like Rust's `split`,
the empty string yields one empty line and a trailing separator yields a
trailing empty line. -/
def splitNl : List Char → List (List Char)
  | [] => [[]]
  | c :: rest =>
    if c = '\n' then [] :: splitNl rest
    else
      match splitNl rest with
      | [] => [[c]]
      | l :: ls => (c :: l) :: ls

/-- Loop body of `line_col_from_char_idx`: walk the lines accumulating the
character count, remembering the last line seen (`lastNr`, `lastLine`) for
the fallback return. -/
def lcAux : List (List Char) → Nat → Nat → Nat → Nat → List Char → Nat × Nat
  | [], _, _, _, lastNr, lastLine => (lastNr, lastLine.length)
  | line :: rest, charIdx, charCount, lineNr, _, _ =>
    if charIdx ≤ charCount + line.length then (lineNr, charIdx - charCount)
    else lcAux rest charIdx (charCount + line.length + 1) (lineNr + 1) lineNr line

/-- Source function `line_col_from_char_idx(s, char_idx)` (lines 358-375). -/
def line_col_from_char_idx (s : List Char) (charIdx : Nat) : Nat × Nat :=
  lcAux (splitNl s) charIdx 0 0 0 s

/-- Loop body of `char_idx_from_line_col`. -/
def cilAux : List (List Char) → Nat × Nat → Nat → Nat → Nat
  | [], _, charCount, _ => charCount
  | line :: rest, pos, charCount, lineNr =>
    if lineNr = pos.1 then charCount + min pos.2 line.length
    else cilAux rest pos (charCount + line.length + 1) (lineNr + 1)

/-- Source function `char_idx_from_line_col(s, pos)` (lines 377-386). -/
def char_idx_from_line_col (s : List Char) (pos : Nat × Nat) : Nat :=
  cilAux (splitNl s) pos 0 0

/-- Loop body of `line_from_number`, with the whole string as fallback. -/
def lfnAux : List (List Char) → Nat → Nat → List Char → List Char
  | [], _, _, fallback => fallback
  | line :: rest, desired, lineNr, fallback =>
    if lineNr = desired then line else lfnAux rest desired (lineNr + 1) fallback

/-- Source function `line_from_number(s, desired_line_number)` (lines 388-395). -/
def line_from_number (s : List Char) (n : Nat) : List Char :=
  lfnAux (splitNl s) n 0 s

/-- Source function `insert_text(&mut cursor, &mut text, text_to_insert)` (lines 285-298):
take the first `cursor` characters (panicking if there are fewer), then the
inserted text, then the remaining characters; the cursor advances by the
inserted character count.  Returns the new `(cursor, text)`. -/
def insert_text (cursor : Nat) (text : List Char) (s : List Char) :
    Option (Nat × List Char) :=
  (takeExact cursor text).map fun pr => (cursor + s.length, pr.1 ++ s ++ pr.2)

/-- Source function `on_key_press(&mut cursor, &mut text, key)` (lines 300-356).  Returns the
new `(cursor, text)`, or `none` on panic. -/
def on_key_press (cursor : Nat) (text : List Char) (key : Key) :
    Option (Nat × List Char) :=
  match key with
  | .backspace =>
    if 0 < cursor then
      (takeExact (cursor - 1) text).map fun pr => (cursor - 1, pr.1 ++ pr.2.drop 1)
    else
      some (cursor, text)
  | .delete =>
    (takeExact cursor text).map fun pr => (cursor, pr.1 ++ pr.2.drop 1)
  | .enter => some (cursor, text)
  | .home =>
    let pos := line_col_from_char_idx text cursor
    some (char_idx_from_line_col text (pos.1, 0), text)
  | .end_ =>
    let pos := line_col_from_char_idx text cursor
    let line := line_from_number text pos.1
    some (char_idx_from_line_col text (pos.1, line.length), text)
  | .left =>
    if 0 < cursor then some (cursor - 1, text) else some (cursor, text)
  | .right => some (min (cursor + 1) text.length, text)
  | .up =>
    let pos := line_col_from_char_idx text cursor
    some (char_idx_from_line_col text (pos.1 - 1, pos.2), text)
  | .down =>
    let pos := line_col_from_char_idx text cursor
    some (char_idx_from_line_col text (pos.1 + 1, pos.2), text)
  | _ => some (cursor, text)

/-- The state the event loop of `TextEdit::ui` reads and writes: the text
buffer, the character cursor, whether the widget still holds keyboard focus,
and the output clipboard channel (`ui.ctx().output().copied_text`). -/
structure FrameState where
  text : List Char
  cursor : Nat
  hasFocus : Bool
  copiedText : List Char
deriving DecidableEq

/-- Result of one iteration of the event loop: continue with the next event,
break out of the loop (`halt`), or panic. -/
inductive StepResult where
  | cont : FrameState → StepResult
  | halt : FrameState → StepResult
  | panic : StepResult
deriving DecidableEq

/-- One arm of the `match event` in `TextEdit::ui` (lines 189-223), with
`ml` the widget's `multiline` flag. -/
def processEvent (ml : Bool) (st : FrameState) (e : Event) : StepResult :=
  match e with
  | .copy => .cont { st with copiedText := st.text }
  | .cut => .cont { st with copiedText := st.text }
  | .text s =>
    if s ≠ ['\n'] ∧ s ≠ ['\r'] then
      match insert_text st.cursor st.text s with
      | some (c, t) => .cont { st with cursor := c, text := t }
      | none => .panic
    else .cont st
  | .key .enter true =>
    if ml then
      match insert_text st.cursor st.text ['\n'] with
      | some (c, t) => .cont { st with cursor := c, text := t }
      | none => .panic
    else .halt { st with hasFocus := false }
  | .key .escape true => .halt { st with hasFocus := false }
  | .key k true =>
    match on_key_press st.cursor st.text k with
    | some (c, t) => .cont { st with cursor := c, text := t }
    | none => .panic
  | _ => .cont st

/-- The event loop `for event in &ui.input().events` (lines 188-224):
process the events in order, stopping early on a `break` (`halt`) and
returning `none` on panic. -/
def processEvents (ml : Bool) (st : FrameState) : List Event → Option FrameState
  | [] => some st
  | e :: rest =>
    match processEvent ml st e with
    | .cont st2 => processEvents ml st2 rest
    | .halt st2 => some st2
    | .panic => none

/-- The widget descriptor `TextEdit<'t>` (lines 23-34).  The opaque external
types `Id`, `TextStyle`, `Srgba` and `f32` are type parameters (no operation
of the modelled code inspects their values); the `&'t mut String` buffer is a
`List Char`. -/
structure TextEdit (Id Style Color F32 : Type) where
  text : List Char
  id : Option Id
  id_source : Option Id
  text_style : Option Style
  text_color : Option Color
  multiline : Bool
  enabled : Bool
  desired_width : Option F32
  desired_height_rows : Nat

/-- Constructor `TextEdit::multiline` (lines 58-70).  Named `mk_multiline`
here because the field accessor `TextEdit.multiline` already carries the
source name. -/
def TextEdit.mk_multiline {Id Style Color F32 : Type} (text : List Char) :
    TextEdit Id Style Color F32 :=
  { text := text
    id := none
    id_source := none
    text_style := none
    text_color := none
    multiline := true
    enabled := true
    desired_width := none
    desired_height_rows := 4 }

/-- Constructor `TextEdit::singleline` (lines 43-55). -/
def TextEdit.singleline {Id Style Color F32 : Type} (text : List Char) :
    TextEdit Id Style Color F32 :=
  { text := text
    id := none
    id_source := none
    text_style := none
    text_color := none
    multiline := false
    enabled := true
    desired_width := none
    desired_height_rows := 1 }

/-- Deprecated constructor `TextEdit::new` (lines 37-40): delegates to
`TextEdit::multiline`. -/
def TextEdit.new {Id Style Color F32 : Type} (text : List Char) :
    TextEdit Id Style Color F32 :=
  TextEdit.mk_multiline text

/-- Setter `TextEdit::desired_rows` (lines 112-115).  As in the source, its
parameter is named `desired_width` and it writes the `desired_width` field. -/
def TextEdit.desired_rows {Id Style Color F32 : Type}
    (self : TextEdit Id Style Color F32) (desired_width : F32) :
    TextEdit Id Style Color F32 :=
  { self with desired_width := some desired_width }

/-- Total character count represented by a list of lines: the sum of the
line lengths plus one separator between consecutive lines. -/
def totalChars : List (List Char) → Nat
  | [] => 0
  | [l] => l.length
  | l :: rest => l.length + 1 + totalChars rest

/-- An event that makes the event loop of `TextEdit::ui` surrender focus and
`break`: Enter when single-line, or Escape. -/
def isTermEvent (ml : Bool) (e : Event) : Prop :=
  (ml = false ∧ e = Event.key Key.enter true) ∨ e = Event.key Key.escape true

/-- When the cursor is in range, taking exactly `cursor` characters succeeds
and splits the list as `take`/`drop`. -/
theorem takeExact_of_le :
    ∀ (n : Nat) (l : List Char), n ≤ l.length →
    takeExact n l = some (l.take n, l.drop n) := by
  intro n
  induction n with
  | zero => intro l _; simp [takeExact]
  | succ m ih =>
    intro l hl
    cases l with
    | nil => simp at hl
    | cons c rest =>
      simp only [takeExact, ih rest (by simpa using hl), Option.map_some]
      simp

/-- Taking past the end of the list fails (the modelled `unwrap` panic). -/
theorem takeExact_of_gt :
    ∀ (n : Nat) (l : List Char), l.length < n → takeExact n l = none := by
  intro n
  induction n with
  | zero => intro l hl; simp at hl
  | succ m ih =>
    intro l hl
    cases l with
    | nil => simp [takeExact]
    | cons c rest =>
      simp only [takeExact, ih rest (by simpa using hl)]
      rfl

/-- A successful `takeExact` is a decomposition of the original list. -/
theorem takeExact_append :
    ∀ (n : Nat) (l : List Char) (pr : List Char × List Char),
    takeExact n l = some pr → pr.1 ++ pr.2 = l := by
  intro n
  induction n with
  | zero =>
    intro l pr h
    simp only [takeExact, Option.some.injEq] at h
    rw [← h]
    simp
  | succ m ih =>
    intro l pr h
    cases l with
    | nil => simp [takeExact] at h
    | cons c rest =>
      simp only [takeExact, Option.map_eq_some'] at h
      obtain ⟨pr2, hpr2, hpr⟩ := h
      rw [← hpr]
      simpa using ih rest pr2 hpr2

/-- C6: for every text, every cursor with `0 ≤ cursor ≤ char_count(text)` and
every inserted string `s`, `insert_text` succeeds and produces
first-`cursor`-characters ∘ `s` ∘ remaining-characters, the character count
grows by exactly `char_count(s)`, and the cursor advances by `char_count(s)`
(all counts in Unicode scalar values). -/
theorem insert_text_splits_at_cursor (cursor : Nat) (text s : List Char)
    (h : cursor ≤ text.length) :
    insert_text cursor text s
      = some (cursor + s.length, text.take cursor ++ s ++ text.drop cursor) ∧
    (text.take cursor ++ s ++ text.drop cursor).length = text.length + s.length := by
  constructor
  · simp only [insert_text, takeExact_of_le cursor text h]
    rfl
  · simp only [List.length_append, List.length_take, List.length_drop]
    omega

/-- Witness for C6: inserting a character into a two-character buffer at
cursor 1. -/
theorem insert_text_splits_at_cursor_w :
    insert_text 1 ['a', 'b'] ['x']
      = some (1 + (['x'] : List Char).length,
          (['a', 'b'] : List Char).take 1 ++ ['x'] ++ (['a', 'b'] : List Char).drop 1) ∧
    ((['a', 'b'] : List Char).take 1 ++ ['x'] ++ (['a', 'b'] : List Char).drop 1).length
      = (['a', 'b'] : List Char).length + (['x'] : List Char).length :=
  insert_text_splits_at_cursor 1 ['a', 'b'] ['x'] (by decide)

/-- C8: with the cursor in range, Backspace at a positive cursor removes
exactly the scalar value at position `cursor - 1` (keeping all other
characters in order) and decrements the cursor; at cursor 0 both the text
and the cursor are unchanged. -/
theorem backspace_removes_char_before_cursor (cursor : Nat) (text : List Char)
    (h : cursor ≤ text.length) :
    (0 < cursor →
      on_key_press cursor text Key.backspace
        = some (cursor - 1, text.take (cursor - 1) ++ text.drop cursor)) ∧
    (cursor = 0 → on_key_press cursor text Key.backspace = some (0, text)) := by
  constructor
  · intro hpos
    simp only [on_key_press, if_pos hpos,
      takeExact_of_le (cursor - 1) text (by omega), Option.map_some']
    have hdrop : (text.drop (cursor - 1)).drop 1 = text.drop cursor := by
      rw [List.drop_drop]
      congr 1
      omega
    rw [hdrop]
  · intro hz
    subst hz
    simp [on_key_press]

/-- Witness for C8: backspace on the buffer `"ab"` at cursor 1. -/
theorem backspace_removes_char_before_cursor_w :
    (0 < 1 →
      on_key_press 1 ['a', 'b'] Key.backspace
        = some (1 - 1, (['a', 'b'] : List Char).take (1 - 1) ++ (['a', 'b'] : List Char).drop 1)) ∧
    ((1 : Nat) = 0 → on_key_press 1 ['a', 'b'] Key.backspace = some (0, ['a', 'b'])) :=
  backspace_removes_char_before_cursor 1 ['a', 'b'] (by decide)

/-- C7: for every text and cursor, a Copy event and a Cut event each set the
output clipboard channel to the entire current text and continue the loop in
a state whose text buffer and cursor are unchanged (Cut does not delete). -/
theorem copy_cut_set_clipboard_only (ml : Bool) (st : FrameState) :
    processEvent ml st Event.copy = .cont { st with copiedText := st.text } ∧
    processEvent ml st Event.cut = .cont { st with copiedText := st.text } ∧
    (FrameState.mk st.text st.cursor st.hasFocus st.text).text = st.text ∧
    (FrameState.mk st.text st.cursor st.hasFocus st.text).cursor = st.cursor :=
  ⟨rfl, rfl, rfl, rfl⟩

/-- C9: the `desired_rows` setter writes its argument into the
`desired_width` field and leaves `desired_height_rows` and every other
field unchanged. -/
theorem desired_rows_writes_desired_width (Id Style Color F32 : Type)
    (te : TextEdit Id Style Color F32) (r : F32) :
    (te.desired_rows r).desired_width = some r ∧
    (te.desired_rows r).desired_height_rows = te.desired_height_rows ∧
    (te.desired_rows r).text = te.text ∧
    (te.desired_rows r).id = te.id ∧
    (te.desired_rows r).id_source = te.id_source ∧
    (te.desired_rows r).text_style = te.text_style ∧
    (te.desired_rows r).text_color = te.text_color ∧
    (te.desired_rows r).multiline = te.multiline ∧
    (te.desired_rows r).enabled = te.enabled :=
  ⟨rfl, rfl, rfl, rfl, rfl, rfl, rfl, rfl, rfl⟩

/-- C10: the deprecated constructor `TextEdit::new` produces a descriptor
equal field-for-field to `TextEdit::multiline`: multi-line mode, enabled,
desired row count 4, and no explicit id, id source, text style, text color
or desired width. -/
theorem new_equals_multiline (Id Style Color F32 : Type) (text : List Char) :
    @TextEdit.new Id Style Color F32 text = TextEdit.mk_multiline text ∧
    (@TextEdit.mk_multiline Id Style Color F32 text).multiline = true ∧
    (@TextEdit.mk_multiline Id Style Color F32 text).enabled = true ∧
    (@TextEdit.mk_multiline Id Style Color F32 text).desired_height_rows = 4 ∧
    (@TextEdit.mk_multiline Id Style Color F32 text).id = none ∧
    (@TextEdit.mk_multiline Id Style Color F32 text).id_source = none ∧
    (@TextEdit.mk_multiline Id Style Color F32 text).text_style = none ∧
    (@TextEdit.mk_multiline Id Style Color F32 text).text_color = none ∧
    (@TextEdit.mk_multiline Id Style Color F32 text).desired_width = none ∧
    (@TextEdit.mk_multiline Id Style Color F32 text).text = text :=
  ⟨rfl, rfl, rfl, rfl, rfl, rfl, rfl, rfl, rfl, rfl⟩

/-- C1 (failing input): from the in-range state text = `"ab"`, cursor = 2,
the Down key sets the cursor to 3 = char_count + 1, not to the end of the
text: `char_idx_from_line_col` falls through its loop accumulating
`line length + 1` for the last line, so the cursor invariant
`cursor ≤ char_count(text)` is broken. -/
theorem down_on_last_line_exceeds_text :
    2 ≤ (['a', 'b'] : List Char).length ∧
    on_key_press 2 ['a', 'b'] Key.down = some (3, ['a', 'b']) ∧
    ¬ 3 ≤ (['a', 'b'] : List Char).length := by
  refine ⟨by decide, ?_, by decide⟩
  rfl

/-- C2 (failing input): starting from the in-range state text = `"ab"`,
cursor = 2, the frame event sequence `[Key{Down, pressed}, Text("x")]`
panics: Down moves the cursor to 3 and `insert_text` then unwraps a missing
character (`none` models the panic). -/
theorem event_sequence_panics :
    processEvents true { text := ['a', 'b'], cursor := 2, hasFocus := true, copiedText := [] }
      [Event.key Key.down true, Event.text ['x']] = none := by
  rfl

/-- C3 (counterexample): a single-line widget whose buffer has no newline
receives the single multi-character event Text("a\nb"); the payload is
neither exactly "\n" nor "\r", so it is inserted whole and the buffer now
contains a newline. -/
theorem singleline_text_event_inserts_newline :
    '\n' ∉ ([] : List Char) ∧
    processEvents false { text := [], cursor := 0, hasFocus := true, copiedText := [] }
        [Event.text ['a', '\n', 'b']]
      = some { text := ['a', '\n', 'b'], cursor := 3, hasFocus := true, copiedText := [] } ∧
    '\n' ∈ (['a', '\n', 'b'] : List Char) := by
  refine ⟨by decide, ?_, by decide⟩
  rfl

/-- Every character of the text produced by `on_key_press` was already in
the input text: key handling only deletes characters or moves the cursor. -/
theorem on_key_press_chars_subset (cursor : Nat) (text : List Char) (k : Key)
    (c2 : Nat) (t2 : List Char) (h : on_key_press cursor text k = some (c2, t2)) :
    ∀ x ∈ t2, x ∈ text := by
  intro x hx
  cases k <;> simp only [on_key_press] at h
  case backspace =>
    by_cases hpos : 0 < cursor
    · rw [if_pos hpos] at h
      cases htk : takeExact (cursor - 1) text with
      | none => rw [htk] at h; simp at h
      | some pr =>
        rw [htk, Option.map_some'] at h
        have hdec := takeExact_append (cursor - 1) text pr htk
        simp only [Option.some.injEq, Prod.mk.injEq] at h
        rw [← h.2] at hx
        rw [← hdec]
        rcases List.mem_append.mp hx with hx1 | hx2
        · exact List.mem_append.mpr (Or.inl hx1)
        · exact List.mem_append.mpr (Or.inr (List.drop_subset 1 pr.2 hx2))
    · rw [if_neg hpos] at h
      simp only [Option.some.injEq, Prod.mk.injEq] at h
      rw [← h.2] at hx
      exact hx
  case delete =>
    cases htk : takeExact cursor text with
    | none => rw [htk] at h; simp at h
    | some pr =>
      rw [htk, Option.map_some'] at h
      have hdec := takeExact_append cursor text pr htk
      simp only [Option.some.injEq, Prod.mk.injEq] at h
      rw [← h.2] at hx
      rw [← hdec]
      rcases List.mem_append.mp hx with hx1 | hx2
      · exact List.mem_append.mpr (Or.inl hx1)
      · exact List.mem_append.mpr (Or.inr (List.drop_subset 1 pr.2 hx2))
  case left =>
    split at h <;>
      (simp only [Option.some.injEq, Prod.mk.injEq] at h; rw [← h.2] at hx; exact hx)
  all_goals
    simp only [Option.some.injEq, Prod.mk.injEq] at h
  all_goals rw [← h.2] at hx
  all_goals exact hx

/-- A halting step (a `break` of the loop) only clears the focus flag: it
comes from Enter in single-line mode or Escape, both of which surrender
focus and touch nothing else. -/
theorem processEvent_halt_clears_focus (ml : Bool) (st st2 : FrameState) (e : Event)
    (h : processEvent ml st e = .halt st2) : st2 = { st with hasFocus := false } := by
  cases e with
  | copy => simp [processEvent] at h
  | cut => simp [processEvent] at h
  | text s =>
    simp only [processEvent] at h
    split at h
    · cases hins : insert_text st.cursor st.text s with
      | none => rw [hins] at h; cases h
      | some pr => rw [hins] at h; cases h
    · cases h
  | key k pressed =>
    cases pressed with
    | false => simp [processEvent] at h
    | true =>
      cases k with
      | enter =>
        simp only [processEvent] at h
        split at h
        · cases hins : insert_text st.cursor st.text ['\n'] with
          | none => rw [hins] at h; cases h
          | some pr => rw [hins] at h; cases h
        · simp only [StepResult.halt.injEq] at h
          exact h.symm
      | escape =>
        simp only [processEvent, StepResult.halt.injEq] at h
        exact h.symm
      | _ =>
        simp only [processEvent] at h
        cases hok : on_key_press st.cursor st.text _ with
        | none => rw [hok] at h; cases h
        | some pr => rw [hok] at h; cases h
  | otherEvent => simp [processEvent] at h

/-- With the single-line event interpreter, a continuing step produces a
text whose characters come from the old text or from the payload of the
processed Text event. -/
theorem processEvent_singleline_chars (st st2 : FrameState) (e : Event)
    (h : processEvent false st e = .cont st2) :
    ∀ x ∈ st2.text, x ∈ st.text ∨ ∃ s, e = Event.text s ∧ x ∈ s := by
  intro x hx
  cases e with
  | copy =>
    simp only [processEvent, StepResult.cont.injEq] at h
    rw [← h] at hx; exact Or.inl hx
  | cut =>
    simp only [processEvent, StepResult.cont.injEq] at h
    rw [← h] at hx; exact Or.inl hx
  | text s =>
    simp only [processEvent] at h
    split at h
    · cases hins : insert_text st.cursor st.text s with
      | none => rw [hins] at h; cases h
      | some pr =>
        rw [hins] at h
        cases htk : takeExact st.cursor st.text with
        | none => rw [insert_text, htk] at hins; cases hins
        | some pr2 =>
          rw [insert_text, htk, Option.map_some'] at hins
          have hdec := takeExact_append st.cursor st.text pr2 htk
          cases hins
          simp only [StepResult.cont.injEq] at h
          rw [← h] at hx
          simp only at hx
          rcases List.mem_append.mp hx with hx1 | hx2
          · rcases List.mem_append.mp hx1 with hx3 | hx4
            · exact Or.inl (hdec ▸ List.mem_append.mpr (Or.inl hx3))
            · exact Or.inr ⟨s, rfl, hx4⟩
          · exact Or.inl (hdec ▸ List.mem_append.mpr (Or.inr hx2))
    · simp only [StepResult.cont.injEq] at h
      rw [← h] at hx; exact Or.inl hx
  | key k pressed =>
    cases pressed with
    | false =>
      simp only [processEvent, StepResult.cont.injEq] at h
      rw [← h] at hx; exact Or.inl hx
    | true =>
      cases k with
      | enter => simp [processEvent] at h
      | escape => simp [processEvent] at h
      | _ =>
        simp only [processEvent] at h
        cases hok : on_key_press st.cursor st.text _ with
        | none => rw [hok] at h; cases h
        | some pr =>
          rw [hok] at h
          simp only [StepResult.cont.injEq] at h
          rw [← h] at hx
          exact Or.inl (on_key_press_chars_subset st.cursor st.text _ pr.1 pr.2
            (by rw [hok]) x hx)
  | otherEvent =>
    simp only [processEvent, StepResult.cont.injEq] at h
    rw [← h] at hx; exact Or.inl hx

/-- C3 (amended): a single-line widget whose buffer contains no newline
still contains no newline after any sequence of events, provided every
Text(s) payload in the sequence contains no newline.  (As stated the claim
is false: the code filters only the exact payloads "\n" and "\r", so a
multi-character payload such as "a\nb" is inserted whole; see the
counterexample.) -/
theorem singleline_preserves_no_newline (evs : List Event) :
    ∀ (st st2 : FrameState), '\n' ∉ st.text →
    (∀ s, Event.text s ∈ evs → '\n' ∉ s) →
    processEvents false st evs = some st2 →
    '\n' ∉ st2.text := by
  induction evs with
  | nil =>
    intro st st2 h1 _ hp
    simp only [processEvents, Option.some.injEq] at hp
    rw [← hp]
    exact h1
  | cons e rest ih =>
    intro st st2 h1 h2 hp
    simp only [processEvents] at hp
    cases hpe : processEvent false st e with
    | cont st3 =>
      rw [hpe] at hp
      refine ih st3 st2 ?_ (fun s hs => h2 s (List.mem_cons_of_mem e hs)) hp
      intro hmem
      rcases processEvent_singleline_chars st st3 e hpe '\n' hmem with hold | ⟨s, hes, hsin⟩
      · exact h1 hold
      · exact h2 s (hes ▸ List.mem_cons_self e rest) hsin
    | halt st3 =>
      rw [hpe] at hp
      simp only [Option.some.injEq] at hp
      rw [← hp]
      rw [processEvent_halt_clears_focus false st st3 e hpe]
      exact h1
    | panic =>
      rw [hpe] at hp
      cases hp

/-- Witness for the amended C3: typing "!" into the single-line buffer "hi"
leaves the buffer newline-free. -/
theorem singleline_preserves_no_newline_w :
    '\n' ∉ (['h', 'i', '!'] : List Char) :=
  singleline_preserves_no_newline [Event.text ['!']]
    { text := ['h', 'i'], cursor := 2, hasFocus := true, copiedText := [] }
    { text := ['h', 'i', '!'], cursor := 3, hasFocus := true, copiedText := [] }
    (by decide)
    (fun s hs => by
      rw [List.mem_singleton] at hs
      injection hs with h
      subst h
      decide)
    (by rfl)

/-- C5: once the event loop reaches a terminating event (Enter in
single-line mode, or Escape), focus is surrendered and no later event of
the frame is processed: the run over any prefix that continued normally,
extended by the terminating event and arbitrary later events, ends in
exactly the state reached at the terminating event with only the focus flag
cleared. -/
theorem termination_short_circuits (ml : Bool) (e : Event) (post : List Event) :
    ∀ (pre : List Event) (st st2 : FrameState),
    processEvents ml st pre = some st2 →
    st2.hasFocus = true →
    isTermEvent ml e →
    processEvents ml st (pre ++ e :: post) = some { st2 with hasFocus := false } := by
  intro pre
  induction pre with
  | nil =>
    intro st st2 hp _ hterm
    simp only [processEvents, Option.some.injEq] at hp
    subst hp
    rcases hterm with ⟨hml, he⟩ | he
    · subst hml
      subst he
      simp [processEvents, processEvent]
    · subst he
      simp [processEvents, processEvent]
  | cons e1 rest ih =>
    intro st st2 hp hfocus hterm
    simp only [processEvents] at hp
    simp only [List.cons_append, processEvents]
    cases hpe : processEvent ml st e1 with
    | cont st3 =>
      rw [hpe] at hp
      exact ih st3 st2 hp hfocus hterm
    | halt st3 =>
      rw [hpe] at hp
      simp only [Option.some.injEq] at hp
      have := processEvent_halt_clears_focus ml st st3 e1 hpe
      rw [hp] at this
      rw [this] at hfocus
      cases hfocus
    | panic =>
      rw [hpe] at hp
      cases hp

/-- Witness for C5 (the spec's literal scenario): single-line "hi", cursor
2, events Text("!"), Enter, Text("X") — the Enter surrenders focus and the
trailing Text("X") is never applied. -/
theorem termination_short_circuits_w :
    processEvents false
      { text := ['h', 'i'], cursor := 2, hasFocus := true, copiedText := [] }
      [Event.text ['!'], Event.key Key.enter true, Event.text ['X']]
      = some { text := ['h', 'i', '!'], cursor := 3, hasFocus := false, copiedText := [] } :=
  termination_short_circuits false (Event.key Key.enter true) [Event.text ['X']]
    [Event.text ['!']]
    { text := ['h', 'i'], cursor := 2, hasFocus := true, copiedText := [] }
    { text := ['h', 'i', '!'], cursor := 3, hasFocus := true, copiedText := [] }
    (by rfl) (by rfl) (Or.inl ⟨rfl, rfl⟩)

/-- Splitting on newlines always yields at least one line (Rust's `split`
yields one empty item for the empty string). -/
theorem splitNl_ne_nil (s : List Char) : splitNl s ≠ [] := by
  cases s with
  | nil => simp [splitNl]
  | cons c rest =>
    simp only [splitNl]
    split
    · simp
    · split <;> simp

/-- Unfolding `totalChars` on a list with at least two lines. -/
theorem totalChars_cons (x : List Char) (L : List (List Char)) (h : L ≠ []) :
    totalChars (x :: L) = x.length + 1 + totalChars L := by
  cases L with
  | nil => exact absurd rfl h
  | cons y ys => rfl

/-- The lines of `splitNl s` account for every character of `s`: the line
lengths plus one separator per line boundary sum to the length of `s`. -/
theorem splitNl_totalChars (s : List Char) : totalChars (splitNl s) = s.length := by
  induction s with
  | nil => rfl
  | cons c rest ih =>
    simp only [splitNl]
    by_cases hc : c = '\n'
    · rw [if_pos hc, totalChars_cons [] (splitNl rest) (splitNl_ne_nil rest), ih]
      simp only [List.length_nil, List.length_cons]
      omega
    · rw [if_neg hc]
      cases hsp : splitNl rest with
      | nil => exact absurd hsp (splitNl_ne_nil rest)
      | cons l ls =>
        rw [hsp] at ih
        cases ls with
        | nil =>
          simp only [totalChars] at ih ⊢
          simp [ih]
        | cons l2 ls2 =>
          rw [totalChars_cons (c :: l) (l2 :: ls2) (by simp)]
          rw [totalChars_cons l (l2 :: ls2) (by simp)] at ih
          simp only [List.length_cons]
          omega

/-- The line number returned by the `line_col_from_char_idx` loop is at
least the line number the loop starts from. -/
theorem lcAux_fst_ge (L : List (List Char)) :
    ∀ (line : List Char) (charIdx cc n dn : Nat) (d : List Char),
    n ≤ (lcAux (line :: L) charIdx cc n dn d).1 := by
  induction L with
  | nil =>
    intro line charIdx cc n dn d
    simp only [lcAux]
    split
    · exact Nat.le_refl n
    · simp only [lcAux]
      exact Nat.le_refl n
  | cons l2 L2 ih =>
    intro line charIdx cc n dn d
    simp only [lcAux]
    split
    · exact Nat.le_refl n
    · exact Nat.le_trans (Nat.le_succ n)
        (ih l2 charIdx (cc + line.length + 1) (n + 1) n line)

/-- One-step unfolding of the `line_col_from_char_idx` loop on a non-empty
line list. -/
theorem lcAux_cons (line : List Char) (rest : List (List Char))
    (charIdx charCount lineNr lastNr : Nat) (lastLine : List Char) :
    lcAux (line :: rest) charIdx charCount lineNr lastNr lastLine
      = if charIdx ≤ charCount + line.length then (lineNr, charIdx - charCount)
        else lcAux rest charIdx (charCount + line.length + 1) (lineNr + 1) lineNr line :=
  rfl

/-- Fallback of the `line_col_from_char_idx` loop when the lines run out. -/
theorem lcAux_nil (charIdx charCount lineNr lastNr : Nat) (lastLine : List Char) :
    lcAux [] charIdx charCount lineNr lastNr lastLine = (lastNr, lastLine.length) :=
  rfl

/-- One-step unfolding of the `char_idx_from_line_col` loop on a non-empty
line list. -/
theorem cilAux_cons (line : List Char) (rest : List (List Char))
    (pos : Nat × Nat) (charCount lineNr : Nat) :
    cilAux (line :: rest) pos charCount lineNr
      = if lineNr = pos.1 then charCount + min pos.2 line.length
        else cilAux rest pos (charCount + line.length + 1) (lineNr + 1) :=
  rfl

/-- Fallback of the `char_idx_from_line_col` loop when the lines run out. -/
theorem cilAux_nil (pos : Nat × Nat) (charCount lineNr : Nat) :
    cilAux [] pos charCount lineNr = charCount :=
  rfl

/-- Composing the two line/column loops with matching accumulators: looking
up the `(line, col)` that `lcAux` assigns to absolute index `cc + i` adds
back exactly `min i (totalChars lines)` to the running character count. -/
theorem lc_cil_roundtrip (L : List (List Char)) :
    ∀ (line : List Char) (i cc n dn : Nat) (d : List Char),
    cilAux (line :: L) (lcAux (line :: L) (cc + i) cc n dn d) cc n
      = cc + min i (totalChars (line :: L)) := by
  induction L with
  | nil =>
    intro line i cc n dn d
    rw [lcAux_cons]
    by_cases h : cc + i ≤ cc + line.length
    · rw [if_pos h, cilAux_cons,
        if_pos (show n = ((n, cc + i - cc) : Nat × Nat).1 from rfl)]
      show cc + min (cc + i - cc) line.length = cc + min i (totalChars [line])
      simp only [totalChars]
      omega
    · rw [if_neg h, lcAux_nil, cilAux_cons,
        if_pos (show n = ((n, line.length) : Nat × Nat).1 from rfl)]
      show cc + min line.length line.length = cc + min i (totalChars [line])
      simp only [totalChars]
      omega
  | cons l2 L2 ih =>
    intro line i cc n dn d
    rw [lcAux_cons]
    by_cases h : cc + i ≤ cc + line.length
    · rw [if_pos h, cilAux_cons,
        if_pos (show n = ((n, cc + i - cc) : Nat × Nat).1 from rfl),
        totalChars_cons line (l2 :: L2) (by simp)]
      show cc + min (cc + i - cc) line.length = cc + (min i (line.length + 1 + totalChars (l2 :: L2)))
      omega
    · rw [if_neg h]
      have harg : cc + i = (cc + line.length + 1) + (i - line.length - 1) := by omega
      rw [harg]
      have hfst := lcAux_fst_ge L2 l2 ((cc + line.length + 1) + (i - line.length - 1))
        (cc + line.length + 1) (n + 1) n line
      rw [cilAux_cons,
        if_neg (show ¬ n = (lcAux (l2 :: L2) ((cc + line.length + 1) + (i - line.length - 1))
          (cc + line.length + 1) (n + 1) n line).1 by omega),
        ih l2 (i - line.length - 1) (cc + line.length + 1) (n + 1) n line,
        totalChars_cons line (l2 :: L2) (by simp)]
      omega

/-- Beyond the total character count, the `line_col_from_char_idx` loop
falls through to its fallback: the number of the last line and that line's
full width. -/
theorem lcAux_beyond (L : List (List Char)) :
    ∀ (line : List Char) (i cc n dn : Nat) (d : List Char),
    cc + totalChars (line :: L) ≤ i →
    lcAux (line :: L) i cc n dn d = (n + L.length, ((line :: L).getLastD []).length) := by
  induction L with
  | nil =>
    intro line i cc n dn d hi
    simp only [totalChars] at hi
    rw [lcAux_cons]
    by_cases h : i ≤ cc + line.length
    · rw [if_pos h]
      have hic : i - cc = line.length := by omega
      rw [hic]
      simp
    · rw [if_neg h, lcAux_nil]
      simp
  | cons l2 L2 ih =>
    intro line i cc n dn d hi
    rw [totalChars_cons line (l2 :: L2) (by simp)] at hi
    rw [lcAux_cons, if_neg (show ¬ i ≤ cc + line.length by omega)]
    rw [ih l2 i (cc + line.length + 1) (n + 1) n line (by omega)]
    simp only [List.length_cons, List.getLastD_cons, Prod.mk.injEq]
    exact ⟨by omega, trivial⟩

/-- The `char_idx_from_line_col` loop clamps the requested column to the
width of the addressed line (the line that `line_from_number`'s loop finds
with the same counter). -/
theorem cilAux_clamps_col (L : List (List Char)) :
    ∀ (l c cc n : Nat) (fb : List Char),
    cilAux L (l, c) cc n = cilAux L (l, min c (lfnAux L l n fb).length) cc n := by
  induction L with
  | nil => intro l c cc n fb; rfl
  | cons line rest ih =>
    intro l c cc n fb
    rw [cilAux_cons, cilAux_cons]
    by_cases h : n = l
    · rw [if_pos (show n = ((l, c) : Nat × Nat).1 from h),
        if_pos (show n = ((l, min c (lfnAux (line :: rest) l n fb).length) : Nat × Nat).1 from h)]
      show cc + min c line.length
        = cc + min (min c (lfnAux (line :: rest) l n fb).length) line.length
      have hline : lfnAux (line :: rest) l n fb = line := by
        simp only [lfnAux, if_pos h]
      rw [hline]
      omega
    · rw [if_neg (show ¬ n = ((l, c) : Nat × Nat).1 from h),
        if_neg (show ¬ n = ((l, min c (lfnAux (line :: rest) l n fb).length) : Nat × Nat).1 from h)]
      have hline : lfnAux (line :: rest) l n fb = lfnAux rest l (n + 1) fb := by
        simp only [lfnAux, if_neg h]
      rw [hline]
      exact ih l c (cc + line.length + 1) (n + 1) fb

/-- C4: round trip and clamping of the line/column helpers.  For every
string and index, `char_idx_from_line_col (line_col_from_char_idx s i)`
equals `min i (char_count s)`; an index beyond the text maps to the last
line and its end column; and `char_idx_from_line_col` clamps the requested
column to the width of the addressed line. -/
theorem char_idx_line_col_round_trip (s : List Char) (i : Nat) :
    char_idx_from_line_col s (line_col_from_char_idx s i) = min i s.length ∧
    (s.length ≤ i →
      line_col_from_char_idx s i
        = ((splitNl s).length - 1, ((splitNl s).getLastD []).length)) ∧
    (∀ l c : Nat,
      char_idx_from_line_col s (l, c)
        = char_idx_from_line_col s (l, min c (line_from_number s l).length)) := by
  refine ⟨?_, ?_, ?_⟩
  · unfold char_idx_from_line_col line_col_from_char_idx
    cases hsp : splitNl s with
    | nil => exact absurd hsp (splitNl_ne_nil s)
    | cons line L =>
      have h := lc_cil_roundtrip L line i 0 0 0 s
      rw [Nat.zero_add, Nat.zero_add] at h
      rw [h]
      have ht : totalChars (line :: L) = s.length := by
        rw [← hsp, splitNl_totalChars]
      rw [ht]
  · intro hi
    unfold line_col_from_char_idx
    cases hsp : splitNl s with
    | nil => exact absurd hsp (splitNl_ne_nil s)
    | cons line L =>
      have ht : totalChars (line :: L) = s.length := by
        rw [← hsp, splitNl_totalChars]
      rw [lcAux_beyond L line i 0 0 0 s (by omega)]
      simp
  · intro l c
    unfold char_idx_from_line_col line_from_number
    exact cilAux_clamps_col (splitNl s) l c 0 0 s
